import Mathlib

/-!
Shallow embedding of src/DetermineMimes/determineMimeTypes.py.

The Python script classifies free-text MIME-type-like labels from count
files into valid / potential / invalid buckets, using a mapping table of
(extension, mime_type) rows and three compiled regexes per row.  File I/O
is abstracted: a CSV file becomes a list of rows (each row a list of
string fields), a directory listing becomes a list of file names, and the
file system becomes an association list from file name to parsed rows.
Strings are modelled over their character lists; character classes
(word characters, upper/lower case) follow the ASCII behaviour, which is
what all the inputs of this repository exercise.
-/

/-- ASCII model of the regex word character class used by the Python
word-boundary assertion: letters, digits and underscore. -/
def isWordChar (c : Char) : Bool := c.isAlphanum || c = '_'

/-- Lower-case a character list, modelling Python lower() and the effect
of re.IGNORECASE on ASCII text. -/
def lowerL (l : List Char) : List Char := l.map Char.toLower

/-- Lower-case a string, modelling Python lower() on ASCII text. -/
def lowerS (s : String) : String := String.mk (lowerL s.data)

/-- Whitespace stripped by Python strip() with no argument (ASCII part). -/
def isSpaceChar (c : Char) : Bool :=
  c = ' ' || c = '\t' || c = '\n' || c = '\r' || c = '\x0b' || c = '\x0c'

/-- Strip leading and trailing whitespace from a character list. -/
def trimL (l : List Char) : List Char :=
  ((l.dropWhile isSpaceChar).reverse.dropWhile isSpaceChar).reverse

/-- Model of Python strip() with no argument. -/
def stripS (s : String) : String := String.mk (trimL s.data)

/-- Boolean check that the first list is a prefix of the second. -/
def startsWithL : List Char → List Char → Bool
  | [], _ => true
  | _ :: _, [] => false
  | p :: ps, c :: cs => p == c && startsWithL ps cs

/-- Boolean check that the first list is a suffix of the second. -/
def endsWithL (p s : List Char) : Bool := startsWithL p.reverse s.reverse

/-- The literal pattern occurs in the subject starting at index i. -/
def occursAt (s p : List Char) (i : Nat) : Bool := startsWithL p (s.drop i)

/-- The character just before position i is a word character (false at
the start of the subject). -/
def prevIsWord (s : List Char) (i : Nat) : Bool :=
  if i = 0 then false else
    match s[i-1]? with
    | some c => isWordChar c
    | none => false

/-- The character at position i is a word character (false past the end
of the subject). -/
def currIsWord (s : List Char) (i : Nat) : Bool :=
  match s[i]? with
  | some c => isWordChar c
  | none => false

/-- Where a word-boundary assertion of the regex engine matches: exactly one
side of position i is a word character. -/
def wbAt (s : List Char) (i : Nat) : Bool := prevIsWord s i != currIsWord s i

/-- Unanchored search for a word-bounded literal: some position carries an
occurrence of the literal with word boundaries on both sides.  This is the
semantics of re.search with a pattern framed by word-boundary assertions
around an escaped literal. -/
def wordSearch (s p : List Char) : Bool :=
  (List.range (s.length + 1)).any (fun i => occursAt s p i && wbAt s i && wbAt s (i + p.length))

/-- A compiled pattern of the loader.  wordPat w is the word-bounded
literal search for w (used for both the extension and the full mime
string); suffixPat w is the dot-star-then-literal-then-dollar form, whose
unanchored search succeeds exactly when the subject ends with w, either at
the very end or just before a final newline. -/
inductive Pat where
  | wordPat : String → Pat
  | suffixPat : String → Pat
deriving DecidableEq

/-- Truthiness of pattern.search(entry) for a compiled pattern.  Both sides
are lower-cased, modelling re.IGNORECASE on ASCII text. -/
def Pat.search : Pat → String → Bool
  | Pat.wordPat w, s => wordSearch (lowerL s.data) (lowerL w.data)
  | Pat.suffixPat w, s =>
      endsWithL (lowerL w.data) (lowerL s.data) ||
      endsWithL (lowerL w.data ++ ['\n']) (lowerL s.data)

/-- Body of a Python integer literal after the optional sign: digits with
single underscores allowed only between digits (continuation check). -/
def intBodyRest : List Char → Bool
  | [] => true
  | ['_'] => false
  | '_' :: c :: rest => c.isDigit && intBodyRest rest
  | c :: rest => c.isDigit && intBodyRest rest

/-- Body of a Python integer literal after the optional sign: nonempty,
starts with a digit. -/
def intBody : List Char → Bool
  | [] => false
  | c :: rest => c.isDigit && intBodyRest rest

/-- Numeric value of a digit character. -/
def digitVal (c : Char) : Nat := c.toNat - 48

/-- Numeric value of a digits-and-underscores body. -/
def natVal (l : List Char) : Nat :=
  l.foldl (fun a c => if c = '_' then a else a * 10 + digitVal c) 0

/-- Model of int(s) for str input: strip surrounding whitespace, optional
sign, then a digit body; returns none where Python raises ValueError. -/
def pyInt? (s : String) : Option Int :=
  match trimL s.data with
  | '+' :: rest => if intBody rest then some ((natVal rest : Nat) : Int) else none
  | '-' :: rest => if intBody rest then some (-((natVal rest : Nat) : Int)) else none
  | rest => if intBody rest then some ((natVal rest : Nat) : Int) else none

/-- The three global mapping tables of the script.  Python dicts preserve
insertion order, so both dicts are modelled as insertion-ordered
association lists; the set valid_mimes is used only through membership. -/
structure MimeTables where
  ext_to_mime : List (String × String)
  mime_patterns : List (String × List Pat)
  valid_mimes : List String
deriving DecidableEq

/-- Python dict assignment d[k] = v: update in place if the key exists,
otherwise append at the end. -/
def dictInsert : List (String × String) → String → String → List (String × String)
  | [], k, v => [(k, v)]
  | (k', v') :: rest, k, v =>
      if k' = k then (k, v) :: rest else (k', v') :: dictInsert rest k v

/-- Get-or-initialise the pattern list of a mime and append new patterns
to it, keeping the key at its first-insertion position. -/
def appendPats : List (String × List Pat) → String → List Pat → List (String × List Pat)
  | [], k, ps => [(k, ps)]
  | (k', v') :: rest, k, ps =>
      if k' = k then (k', v' ++ ps) :: rest else (k', v') :: appendPats rest k ps

/-- Python set add, modelled on a duplicate-free-by-construction list. -/
def setAdd (l : List String) (x : String) : List String :=
  if x ∈ l then l else l ++ [x]

/-- First-occurrence lookup in an insertion-ordered association list,
modelling Python dict access. -/
def lookupL {α : Type} (k : String) : List (String × α) → Option α
  | [] => none
  | (a, b) :: rest => if a = k then some b else lookupL k rest

/-- One iteration of the loader loop of load_mime_mapping: strip and
lower-case both fields, record the extension mapping, add the mime to the
valid set, and append the three compiled patterns (word-bounded extension,
ends-with extension, word-bounded full mime) to the mime's pattern list. -/
def loadRow (T : MimeTables) (row : String × String) : MimeTables :=
  let ext := lowerS (stripS row.1)
  let mime := lowerS (stripS row.2)
  { ext_to_mime := dictInsert T.ext_to_mime ext mime
    valid_mimes := setAdd T.valid_mimes mime
    mime_patterns := appendPats T.mime_patterns mime
      [Pat.wordPat ext, Pat.suffixPat ext, Pat.wordPat mime] }

/-- The empty global tables, as initialised at module load. -/
def emptyTables : MimeTables := ⟨[], [], []⟩

/-- load_mime_mapping over the (extension, mime_type) rows read from the
mapping file, starting from the empty global tables. -/
def load_mime_mapping (rows : List (String × String)) : MimeTables :=
  rows.foldl loadRow emptyTables

/-- normalize_entry of the script: lower-case the entry. -/
def normalize_entry (entry : String) : String := lowerS entry

/-- Inner double loop of match_mime over the insertion-ordered
mime-to-patterns table: return the first mime whose pattern list contains
a pattern whose search succeeds. -/
def matchInPatterns : List (String × List Pat) → String → Option String
  | [], _ => none
  | (m, ps) :: rest, e =>
      if ps.any (fun p => p.search e) then some m else matchInPatterns rest e

/-- match_mime of the script. -/
def match_mime (T : MimeTables) (entry : String) : Option String :=
  matchInPatterns T.mime_patterns entry

/-- The local aggregation state of process_counts: three defaultdict(int)
aggregates, three defaultdict(list) entry maps, three running sums. -/
structure Buckets where
  valid_mime_aggregate : List (String × Int)
  invalid_mime_aggregate : List (String × Int)
  potential_mime_aggregate : List (String × Int)
  valid_entry_map : List (String × List String)
  invalid_entry_map : List (String × List String)
  potential_entry_map : List (String × List String)
  valid_mime_sum : Int
  invalid_mime_sum : Int
  possible_mime_sum : Int
deriving DecidableEq

/-- The fresh aggregation state at the top of process_counts. -/
def initBuckets : Buckets := ⟨[], [], [], [], [], [], 0, 0, 0⟩

/-- defaultdict(int) update d[k] += v: bump in place if present, else
append the key at the end with value v. -/
def bumpInt : List (String × Int) → String → Int → List (String × Int)
  | [], k, v => [(k, v)]
  | (k', v') :: rest, k, v =>
      if k' = k then (k', v' + v) :: rest else (k', v') :: bumpInt rest k v

/-- defaultdict(list) update d[k].append(e). -/
def pushEntry : List (String × List String) → String → String → List (String × List String)
  | [], k, e => [(k, [e])]
  | (k', v') :: rest, k, e =>
      if k' = k then (k', v' ++ [e]) :: rest else (k', v') :: pushEntry rest k e

/-- Read-back of a defaultdict(int) value (0 when the key is absent). -/
def lookupInt (d : List (String × Int)) (k : String) : Int :=
  (lookupL k d).getD 0

/-- One iteration of the row loop of process_counts.  An empty row makes
entry = row[0] raise an uncaught IndexError, returned as none; a row whose
second field is missing or fails int() is skipped (the try block catches
IndexError and ValueError); otherwise the row is classified into exactly
one bucket.  The fuzzy branch guard is a Python truthiness test on the
string returned by match_mime: it is taken only when the result is
neither None nor the empty string, so a matched empty-string mime — which
the loader registers when a mapping row has a blank mime_type field — is
falsy and the row falls through to the invalid bucket under its raw
entry. -/
def processRow (T : MimeTables) (b : Buckets) (row : List String) : Option Buckets :=
  match row with
  | [] => none
  | entry :: rest =>
    match rest[0]? >>= pyInt? with
    | none => some b
    | some count =>
      if entry ∈ T.valid_mimes then
        some { b with
          valid_mime_aggregate := bumpInt b.valid_mime_aggregate entry count
          valid_entry_map := pushEntry b.valid_entry_map entry entry
          valid_mime_sum := b.valid_mime_sum + count }
      else
        match match_mime T (normalize_entry entry) with
        | some matched_mime =>
          if matched_mime = "" then
            some { b with
              invalid_mime_aggregate := bumpInt b.invalid_mime_aggregate entry count
              invalid_entry_map := pushEntry b.invalid_entry_map entry entry
              invalid_mime_sum := b.invalid_mime_sum + count }
          else
            some { b with
              potential_mime_aggregate := bumpInt b.potential_mime_aggregate matched_mime count
              potential_entry_map := pushEntry b.potential_entry_map matched_mime entry
              possible_mime_sum := b.possible_mime_sum + count }
        | none =>
          some { b with
            invalid_mime_aggregate := bumpInt b.invalid_mime_aggregate entry count
            invalid_entry_map := pushEntry b.invalid_entry_map entry entry
            invalid_mime_sum := b.invalid_mime_sum + count }

/-- The reading-and-classifying loop of process_counts over the parsed
rows of the input file: the first row is consumed unconditionally by
next(reader, None), then each remaining row is processed in order.  The
result is none exactly when some processed row raises the uncaught
IndexError of row[0]. -/
def process_counts (T : MimeTables) (rows : List (List String)) : Option Buckets :=
  (rows.drop 1).foldlM (processRow T) initBuckets

/-- One iteration of the loop of sum_counts: add int(row[1]) where it
parses, skip the row otherwise. -/
def sumStep (acc : Int) (row : List String) : Int :=
  match row[1]? >>= pyInt? with
  | some n => acc + n
  | none => acc

/-- sum_counts of the script: skip the header row, then total the count
column, skipping unparsable rows. -/
def sum_counts (rows : List (List String)) : Int :=
  (rows.drop 1).foldl sumStep 0

/-- Comma-and-space join used for the entry list column of the potential
report. -/
def joinEntries (l : List String) : String := String.intercalate ", " l

/-- Rows written by write_potential_mime_types: header, one row per
matched mime in aggregate insertion order, then the summary row. -/
def write_potential_mime_types (b : Buckets) : List (List String) :=
  [["Matched Mime Types", "Count", "Potential Mime Types"]] ++
  b.potential_mime_aggregate.map
    (fun p => [p.1, toString p.2, joinEntries ((lookupL p.1 b.potential_entry_map).getD [])]) ++
  [["Total Count", toString b.possible_mime_sum, ""]]

/-- Rows written by write_valid_mime_types. -/
def write_valid_mime_types (b : Buckets) : List (List String) :=
  [["Valid Mime Types", "Count"]] ++
  b.valid_mime_aggregate.map (fun p => [p.1, toString p.2]) ++
  [["Total Valid Count", toString b.valid_mime_sum]]

/-- Rows written by write_invalid_mime_types. -/
def write_invalid_mime_types (b : Buckets) : List (List String) :=
  [["Invalid Mime Types", "Count"]] ++
  b.invalid_mime_aggregate.map (fun p => [p.1, toString p.2]) ++
  [["Total Invalid Count", toString b.invalid_mime_sum]]

/-- Double every double-quote character, as csv.writer does inside a
quoted field. -/
def escapeQuotes : List Char → List Char
  | [] => []
  | c :: rest =>
      if c = '"' then '"' :: '"' :: escapeQuotes rest else c :: escapeQuotes rest

/-- Serialisation of one field under the default QUOTE_MINIMAL policy of
csv.writer: quote exactly the fields containing a separator, a quote or a
line break, doubling embedded quotes. -/
def csvField (s : String) : String :=
  if s.data.any (fun c => c = ',' || c = '"' || c = '\r' || c = '\n')
  then String.mk ('"' :: (escapeQuotes s.data ++ ['"']))
  else s

/-- Serialisation of one row: comma-joined fields with the default CRLF
terminator of csv.writer. -/
def csvLine (row : List String) : String :=
  String.intercalate "," (row.map csvField) ++ "\r\n"

/-- Byte content of a written report file. -/
def csvSerialize (rows : List (List String)) : String :=
  String.join (rows.map csvLine)

/-- Rendering of the env value inside an f-string (None prints as the
four-letter word). -/
def envName : Option String → String
  | some e => e
  | none => "None"

/-- Text printed at the end of write_potential_mime_types. -/
def potentialMsg (env : Option String) (n : Int) : String :=
  "Sum of counts for possible mime type matches for " ++ envName env ++ ": " ++ toString n ++ "\n"

/-- Text printed at the end of write_valid_mime_types. -/
def validMsg (env : Option String) (n : Int) : String :=
  "Sum of counts for valid mime type matches for " ++ envName env ++ ": " ++ toString n ++ "\n"

/-- Text printed at the end of write_invalid_mime_types. -/
def invalidMsg (env : Option String) (n : Int) : String :=
  "Sum of counts for invalid mime type matches for " ++ envName env ++ ": " ++ toString n ++ "\n"

/-- Final text printed by main. -/
def totalMsg (n : Int) : String :=
  "Total count across all files: " ++ toString n ++ "\n"

/-- find_file of the script over the working-directory listing:
first name comparing case-insensitively equal to the wanted name. -/
def find_file (dir : List String) (wanted : String) : Option String :=
  dir.find? (fun f => lowerS f == lowerS wanted)

/-- The literal head of the environment-extraction regex. -/
def lit1 : List Char := "prod-".data

/-- The literal tail of the environment-extraction regex. -/
def lit2 : List Char := "-mime-types-counts.csv".data

/-- Non-greedy group matching at a fixed position: the shortest
newline-free middle after which the literal tail matches. -/
def envShortest : List Char → Option (List Char)
  | [] => if startsWithL lit2 [] then some [] else none
  | c :: rest =>
    if startsWithL lit2 (c :: rest) then some []
    else if c = '\n' then none
    else (envShortest rest).map (fun m => c :: m)

/-- Attempt of the environment regex at one start position: the literal
head, then the shortest middle. -/
def tryHere (cs : List Char) : Option (List Char) :=
  if startsWithL lit1 cs then envShortest (cs.drop lit1.length) else none

/-- re.search over start positions, leftmost first. -/
def searchEnv : List Char → Option (List Char)
  | [] => tryHere []
  | c :: rest =>
    match tryHere (c :: rest) with
    | some m => some m
    | none => searchEnv rest

/-- extract_env of the script: group(1) of the first match of the pattern
prod-(.*?)-mime-types-counts.csv, or None. -/
def extract_env (filename : String) : Option String :=
  (searchEnv filename.data).map (fun m => String.mk m)

/-- The three (input, potential output, valid output, invalid output)
tuples of main. -/
structure EnvSpec where
  infile : String
  potential_outfile : String
  valid_outfile : String
  invalid_outfile : String
deriving DecidableEq

/-- The files_envs list of main. -/
def files_envs : List EnvSpec :=
  [⟨"prod-us-only-mime-types-counts.csv", "mime-type-mapping-US.csv",
    "valid-mime-type-mapping-US.csv", "invalid-mime-type-mapping-US.csv"⟩,
   ⟨"prod-eu-only-mime-types-counts.csv", "mime-type-mapping-EU.csv",
    "valid-mime-type-mapping-EU.csv", "invalid-mime-type-mapping-EU.csv"⟩,
   ⟨"prod-global-mime-types-counts.csv", "mime-type-mapping-Global.csv",
    "valid-mime-type-mapping-Global.csv", "invalid-mime-type-mapping-Global.csv"⟩]

/-- Uncaught exceptions that abort a run of main: the TypeError of
open(None) inside sum_counts, a failure to open a found file, and the
IndexError of row[0] on an empty row inside process_counts. -/
inductive Fault where
  | typeError : Fault
  | openError : Fault
  | indexError : Fault
deriving DecidableEq

/-- Observable outcome of a run of main: the lines printed to stdout in
order, the report files written with their byte content, and either the
final total or the uncaught exception that aborted the run. -/
structure RunResult where
  messages : List String
  written : List (String × String)
  outcome : Except Fault Int

/-- The three report files written for one environment. -/
def reportFiles (spec : EnvSpec) (b : Buckets) : List (String × String) :=
  [(spec.potential_outfile, csvSerialize (write_potential_mime_types b)),
   (spec.valid_outfile, csvSerialize (write_valid_mime_types b)),
   (spec.invalid_outfile, csvSerialize (write_invalid_mime_types b))]

/-- The three summary lines printed for one environment, in the order of
the write calls of process_counts. -/
def reportMsgs (env : Option String) (b : Buckets) : List String :=
  [potentialMsg env b.possible_mime_sum,
   validMsg env b.valid_mime_sum,
   invalidMsg env b.invalid_mime_sum]

/-- The per-environment loop of main.  When find_file yields nothing the
very next statement, total_count += sum_counts(actual_file), calls
open(None) and the TypeError aborts the run at once: the branch printing
the file-not-found message is unreachable.  When the file is found it is
summed and then processed, and the loop continues. -/
def runEnvs (T : MimeTables) (dir : List String)
    (fs : List (String × List (List String))) :
    List EnvSpec → Int → RunResult
  | [], total => ⟨[totalMsg total], [], Except.ok total⟩
  | spec :: rest, total =>
    match find_file dir spec.infile with
    | none => ⟨[], [], Except.error Fault.typeError⟩
    | some path =>
      match lookupL path fs with
      | none => ⟨[], [], Except.error Fault.openError⟩
      | some rows =>
        match process_counts T rows with
        | none => ⟨[], [], Except.error Fault.indexError⟩
        | some b =>
          let r := runEnvs T dir fs rest (total + sum_counts rows)
          ⟨reportMsgs (extract_env path) b ++ r.messages,
           reportFiles spec b ++ r.written, r.outcome⟩

/-- main after load_mime_mapping has read the mapping file: dir is the
working-directory listing scanned by find_file, fs maps a file name to
its parsed rows. -/
def mainRun (T : MimeTables) (dir : List String)
    (fs : List (String × List (List String))) : RunResult :=
  runEnvs T dir fs files_envs 0

/-- Variant of the row step that carries the global tables through the
fold state, to express that processing never writes them back changed. -/
def processRowG (Tb : MimeTables × Buckets) (row : List String) :
    Option (MimeTables × Buckets) :=
  (processRow Tb.1 Tb.2 row).map (fun b => (Tb.1, b))

/-- process_counts with the global tables threaded through the fold. -/
def process_countsG (T : MimeTables) (rows : List (List String)) :
    Option (MimeTables × Buckets) :=
  (rows.drop 1).foldlM processRowG (T, initBuckets)


/-- The first and last characters of a subject both lie in the word class;
the condition under which the word-bounded literal search over a string
finds the string itself. -/
def headTailWord (s : List Char) : Bool :=
  currIsWord s 0 && currIsWord s (s.length - 1)

/-- Contribution of one row to the total of the rows whose first field is
a given entry (zero for other rows and for unparsable counts). -/
def entryStep (entry : String) (a : Int) (r : List String) : Int :=
  match r with
  | [] => a
  | e :: rest =>
    if e = entry then
      match rest[0]? >>= pyInt? with
      | some n => a + n
      | none => a
    else a

/-- Total of the parsed counts of the rows whose first field is the given
entry. -/
def entrySum (entry : String) (rows : List (List String)) : Int :=
  rows.foldl (entryStep entry) 0

/-- A character list matches the environment-extraction regex at some
position with the given group: it decomposes around the two literals with
a newline-free middle. -/
def EnvDecomp (s m : List Char) : Prop :=
  (∃ pre post, s = pre ++ lit1 ++ m ++ lit2 ++ post) ∧ ∀ c ∈ m, c ≠ '\n'

/-- Mapping table of the documented scenario: one row mapping extension
jpg to mime image/jpeg. -/
def scenarioTables : MimeTables := load_mime_mapping [("jpg", "image/jpeg")]

/-- Count-file rows of the documented scenario: a header row plus four
data rows, the last with an unparsable count. -/
def scenarioRows : List (List String) :=
  [["entry", "count"], ["image/jpeg", "5"], ["myfilejpg", "3"],
   ["bogus/type", "2"], ["badrow", "x"]]

/-- The aggregation state process_counts reaches on the scenario rows. -/
def scenarioBuckets : Buckets :=
  ⟨[("image/jpeg", 5)], [("bogus/type", 2)], [("image/jpeg", 3)],
   [("image/jpeg", ["image/jpeg"])], [("bogus/type", ["bogus/type"])],
   [("image/jpeg", ["myfilejpg"])], 5, 2, 3⟩

/-! ### Lemmas about the association-list dictionary operations -/

theorem lookupL_bumpInt_self (d : List (String × Int)) (k : String) (v : Int) :
    lookupL k (bumpInt d k v) = some ((lookupL k d).getD 0 + v) := by
  induction d with
  | nil => simp [bumpInt, lookupL]
  | cons p rest ih =>
    obtain ⟨a, b⟩ := p
    by_cases h : a = k
    · subst h; simp [bumpInt, lookupL]
    · simp [bumpInt, h, lookupL, ih]

theorem lookupL_bumpInt_ne (d : List (String × Int)) (k k' : String) (v : Int)
    (h : k ≠ k') : lookupL k (bumpInt d k' v) = lookupL k d := by
  induction d with
  | nil => simp [bumpInt, lookupL, Ne.symm h]
  | cons p rest ih =>
    obtain ⟨a, b⟩ := p
    by_cases ha : a = k'
    · subst ha; simp [bumpInt, lookupL, ih, Ne.symm h]
    · by_cases hak : a = k
      · subst hak; simp [bumpInt, ha, lookupL]
      · simp [bumpInt, ha, lookupL, hak, ih]

theorem lookupL_pushEntry_self (d : List (String × List String)) (k e : String) :
    lookupL k (pushEntry d k e) = some ((lookupL k d).getD [] ++ [e]) := by
  induction d with
  | nil => simp [pushEntry, lookupL]
  | cons p rest ih =>
    obtain ⟨a, b⟩ := p
    by_cases h : a = k
    · subst h; simp [pushEntry, lookupL]
    · simp [pushEntry, h, lookupL, ih]

theorem lookupL_pushEntry_ne (d : List (String × List String)) (k k' e : String)
    (h : k ≠ k') : lookupL k (pushEntry d k' e) = lookupL k d := by
  induction d with
  | nil => simp [pushEntry, lookupL, Ne.symm h]
  | cons p rest ih =>
    obtain ⟨a, b⟩ := p
    by_cases ha : a = k'
    · subst ha; simp [pushEntry, lookupL, ih, Ne.symm h]
    · by_cases hak : a = k
      · subst hak; simp [pushEntry, ha, lookupL]
      · simp [pushEntry, ha, lookupL, hak, ih]

theorem bumpInt_keys (d : List (String × Int)) (k x : String) (v : Int)
    (hd : ∀ p ∈ d, p.1 ≠ x) (hk : k ≠ x) : ∀ p ∈ bumpInt d k v, p.1 ≠ x := by
  induction d with
  | nil => simpa [bumpInt] using hk
  | cons p rest ih =>
    obtain ⟨a, b⟩ := p
    intro q hq
    by_cases ha : a = k
    · subst ha
      simp only [bumpInt, ite_true, eq_self_iff_true, if_true, List.mem_cons] at hq
      rcases hq with hq | hq
      · subst hq; exact hd (a, b) (List.mem_cons_self _ _)
      · exact hd q (List.mem_cons_of_mem _ hq)
    · simp only [bumpInt, ha, if_false, List.mem_cons] at hq
      rcases hq with hq | hq
      · subst hq; exact hd (a, b) (List.mem_cons_self _ _)
      · exact ih (fun p hp => hd p (List.mem_cons_of_mem _ hp)) q hq

theorem pushEntry_keys (d : List (String × List String)) (k e x : String)
    (hd : ∀ p ∈ d, p.1 ≠ x) (hk : k ≠ x) : ∀ p ∈ pushEntry d k e, p.1 ≠ x := by
  induction d with
  | nil => simpa [pushEntry] using hk
  | cons p rest ih =>
    obtain ⟨a, b⟩ := p
    intro q hq
    by_cases ha : a = k
    · subst ha
      simp only [pushEntry, ite_true, eq_self_iff_true, if_true, List.mem_cons] at hq
      rcases hq with hq | hq
      · subst hq; exact hd (a, b) (List.mem_cons_self _ _)
      · exact hd q (List.mem_cons_of_mem _ hq)
    · simp only [pushEntry, ha, if_false, List.mem_cons] at hq
      rcases hq with hq | hq
      · subst hq; exact hd (a, b) (List.mem_cons_self _ _)
      · exact ih (fun p hp => hd p (List.mem_cons_of_mem _ hp)) q hq

theorem pushEntry_vals (d : List (String × List String)) (k e x : String)
    (hd : ∀ p ∈ d, x ∉ p.2) (hx : x ≠ e) : ∀ p ∈ pushEntry d k e, x ∉ p.2 := by
  induction d with
  | nil =>
    intro q hq
    simp only [pushEntry, List.mem_singleton] at hq
    subst hq
    simpa using hx
  | cons p rest ih =>
    obtain ⟨a, b⟩ := p
    intro q hq
    by_cases ha : a = k
    · subst ha
      simp only [pushEntry, ite_true, eq_self_iff_true, if_true, List.mem_cons] at hq
      rcases hq with hq | hq
      · subst hq
        have hb := hd (a, b) (List.mem_cons_self _ _)
        simp only [List.mem_append, List.mem_singleton]
        rintro (h | h)
        · exact hb h
        · exact hx h
      · exact hd q (List.mem_cons_of_mem _ hq)
    · simp only [pushEntry, ha, if_false, List.mem_cons] at hq
      rcases hq with hq | hq
      · subst hq; exact hd (a, b) (List.mem_cons_self _ _)
      · exact ih (fun p hp => hd p (List.mem_cons_of_mem _ hp)) q hq

/-! ### Lemmas about the classifier loop -/

theorem matchInPatterns_some (l : List (String × List Pat)) (e m : String)
    (h : matchInPatterns l e = some m) :
    ∃ l₁ ps l₂, l = l₁ ++ (m, ps) :: l₂ ∧ ps.any (fun p => p.search e) = true ∧
      ∀ q ∈ l₁, q.2.any (fun p => p.search e) = false := by
  induction l with
  | nil => simp [matchInPatterns] at h
  | cons p rest ih =>
    obtain ⟨k, ps⟩ := p
    by_cases hm : ps.any (fun p => p.search e) = true
    · simp only [matchInPatterns, hm, if_true, Option.some.injEq] at h
      subst h
      exact ⟨[], ps, rest, by simp, hm, by simp⟩
    · simp only [matchInPatterns, hm, if_false] at h
      obtain ⟨l₁, ps', l₂, heq, hany, hprev⟩ := ih h
      refine ⟨(k, ps) :: l₁, ps', l₂, by simp [heq], hany, ?_⟩
      intro q hq
      rcases List.mem_cons.mp hq with hq | hq
      · subst hq; simpa using hm
      · exact hprev q hq

theorem matchInPatterns_none (l : List (String × List Pat)) (e : String)
    (h : matchInPatterns l e = none) :
    ∀ q ∈ l, q.2.any (fun p => p.search e) = false := by
  induction l with
  | nil => simp
  | cons p rest ih =>
    obtain ⟨k, ps⟩ := p
    by_cases hm : ps.any (fun p => p.search e) = true
    · simp [matchInPatterns, hm] at h
    · simp only [matchInPatterns, hm, if_false] at h
      intro q hq
      rcases List.mem_cons.mp hq with hq | hq
      · subst hq; simpa using hm
      · exact ih h q hq

theorem matchInPatterns_isSome (l : List (String × List Pat)) (e : String)
    (h : ∃ q ∈ l, q.2.any (fun p => p.search e) = true) :
    (matchInPatterns l e).isSome = true := by
  induction l with
  | nil => simp at h
  | cons p rest ih =>
    obtain ⟨k, ps⟩ := p
    by_cases hm : ps.any (fun p => p.search e) = true
    · simp [matchInPatterns, hm]
    · simp only [matchInPatterns, hm, if_false]
      obtain ⟨q, hq, hqq⟩ := h
      rcases List.mem_cons.mp hq with hq | hq
      · subst hq; simp [hqq] at hm
      · exact ih ⟨q, hq, hqq⟩

/-! ### Lemmas about the loader -/

theorem lookupL_appendPats_self (d : List (String × List Pat)) (k : String)
    (ps : List Pat) :
    lookupL k (appendPats d k ps) = some ((lookupL k d).getD [] ++ ps) := by
  induction d with
  | nil => simp [appendPats, lookupL]
  | cons p rest ih =>
    obtain ⟨a, b⟩ := p
    by_cases h : a = k
    · subst h; simp [appendPats, lookupL]
    · simp [appendPats, h, lookupL, ih]

theorem lookupL_appendPats_ne (d : List (String × List Pat)) (k k' : String)
    (ps : List Pat) (h : k' ≠ k) :
    lookupL k' (appendPats d k ps) = lookupL k' d := by
  induction d with
  | nil => simp [appendPats, lookupL, Ne.symm h]
  | cons p rest ih =>
    obtain ⟨a, b⟩ := p
    by_cases ha : a = k
    · subst ha; simp [appendPats, lookupL, ih, Ne.symm h]
    · by_cases hak : a = k'
      · subst hak; simp [appendPats, ha, lookupL]
      · simp [appendPats, ha, lookupL, hak, ih]

theorem appendPats_mem_self (d : List (String × List Pat)) (k : String)
    (ps : List Pat) :
    ∃ ps', (k, ps') ∈ appendPats d k ps ∧ ∀ x ∈ ps, x ∈ ps' := by
  induction d with
  | nil => exact ⟨ps, by simp [appendPats], fun x hx => hx⟩
  | cons p rest ih =>
    obtain ⟨a, b⟩ := p
    by_cases h : a = k
    · subst h
      exact ⟨b ++ ps, by simp [appendPats], fun x hx => List.mem_append_right _ hx⟩
    · obtain ⟨ps', hm, hx⟩ := ih
      exact ⟨ps', by simp [appendPats, h, hm], hx⟩

theorem appendPats_mem_preserve (d : List (String × List Pat)) (k k' : String)
    (ps ps' : List Pat) (h : (k', ps') ∈ d) :
    ∃ ps'', (k', ps'') ∈ appendPats d k ps ∧ ∀ x ∈ ps', x ∈ ps'' := by
  induction d with
  | nil => simp at h
  | cons p rest ih =>
    obtain ⟨a, b⟩ := p
    by_cases ha : a = k
    · subst ha
      rcases List.mem_cons.mp h with h | h
      · obtain ⟨h1, h2⟩ := Prod.mk.injEq .. ▸ h
        refine ⟨b ++ ps, ?_, ?_⟩
        · simp [appendPats, h1.symm]
        · intro x hx
          exact List.mem_append_left _ (h2 ▸ hx)
      · exact ⟨ps', by simp [appendPats, List.mem_cons_of_mem _ h], fun x hx => hx⟩
    · rcases List.mem_cons.mp h with h | h
      · refine ⟨ps', ?_, fun x hx => hx⟩
        simp [appendPats, ha, h]
      · obtain ⟨ps'', hm, hx⟩ := ih h
        exact ⟨ps'', by simp [appendPats, ha, hm], hx⟩

theorem mem_setAdd_self (l : List String) (x : String) : x ∈ setAdd l x := by
  by_cases h : x ∈ l <;> simp [setAdd, h]

theorem mem_setAdd_of_mem (l : List String) (x y : String) (h : y ∈ l) :
    y ∈ setAdd l x := by
  by_cases hx : x ∈ l <;> simp [setAdd, hx, h]

theorem mem_setAdd (l : List String) (x y : String) (h : y ∈ setAdd l x) :
    y = x ∨ y ∈ l := by
  by_cases hx : x ∈ l
  · simp only [setAdd, hx, if_true] at h
    exact Or.inr h
  · simp only [setAdd, hx, if_false, List.mem_append, List.mem_singleton] at h
    tauto

/-! ### Character-case and word-boundary lemmas -/

theorem isUpper_toLower (c : Char) : (Char.toLower c).isUpper = false := by
  unfold Char.toLower
  by_cases h : c.toNat ≥ 65 ∧ c.toNat ≤ 90
  · rw [if_pos h]
    have hv : (c.toNat + 32).isValidChar := Or.inl (by omega)
    unfold Char.ofNat
    rw [dif_pos hv]
    unfold Char.ofNatAux Char.isUpper
    simp only [Bool.and_eq_false_iff]
    right
    simp only [UInt32.le_def, BitVec.le_def]
    simp [BitVec.ofNatLt]
    omega
  · rw [if_neg h]
    unfold Char.isUpper
    simp only [Bool.and_eq_false_iff]
    rcases Nat.lt_or_ge c.toNat 65 with h1 | h1
    · left
      simp only [UInt32.le_def, BitVec.le_def]
      simp [Char.toNat, UInt32.toNat] at h1 ⊢
      omega
    · right
      have h2 : ¬ c.toNat ≤ 90 := by tauto
      simp only [UInt32.le_def, BitVec.le_def]
      simp [Char.toNat, UInt32.toNat] at h2 ⊢
      omega

theorem lowerS_no_upper (s : String) :
    (lowerS s).data.any Char.isUpper = false := by
  simp [lowerS, lowerL, List.any_map, Function.comp_def, isUpper_toLower]

theorem startsWithL_refl (l : List Char) : startsWithL l l = true := by
  induction l with
  | nil => rfl
  | cons c rest ih => simp [startsWithL, ih]

theorem wordSearch_self (s : List Char) (h : headTailWord s = true) :
    wordSearch s s = true := by
  have hne : s ≠ [] := by
    intro he
    subst he
    simp [headTailWord, currIsWord] at h
  obtain ⟨h0, h1⟩ := Bool.and_eq_true_iff.mp h
  rw [wordSearch, List.any_eq_true]
  refine ⟨0, List.mem_range.mpr (by omega), ?_⟩
  have hocc : occursAt s s 0 = true := by
    simpa [occursAt] using startsWithL_refl s
  have hwb0 : wbAt s 0 = true := by
    have hp : prevIsWord s 0 = false := by simp [prevIsWord]
    simp [wbAt, hp, h0]
  have hlen : s.length ≠ 0 := fun he => hne (List.length_eq_zero.mp he)
  have hwbn : wbAt s s.length = true := by
    have hpn : prevIsWord s s.length = true := by
      simp only [prevIsWord, if_neg hlen]
      simpa [currIsWord] using h1
    have hcn : currIsWord s s.length = false := by
      simp [currIsWord, List.getElem?_eq_none (Nat.le_refl _)]
    simp [wbAt, hpn, hcn]
  simp [hocc, hwb0, hwbn]

/-! ### Invariants of the loaded tables -/

theorem load_valid_no_upper (M : List (String × String)) :
    ∀ v ∈ (load_mime_mapping M).valid_mimes, v.data.any Char.isUpper = false := by
  suffices h : ∀ T : MimeTables,
      (∀ v ∈ T.valid_mimes, v.data.any Char.isUpper = false) →
      ∀ v ∈ (M.foldl loadRow T).valid_mimes, v.data.any Char.isUpper = false by
    exact h emptyTables (by simp [emptyTables])
  induction M with
  | nil => intro T hT; simpa using hT
  | cons r rest ih =>
    intro T hT
    simp only [List.foldl_cons]
    refine ih (loadRow T r) ?_
    intro v hv
    rcases mem_setAdd _ _ _ hv with hv | hv
    · subst hv; exact lowerS_no_upper _
    · exact hT v hv

theorem load_wordPat_inv (M : List (String × String)) :
    ∀ v ∈ (load_mime_mapping M).valid_mimes,
      ∃ ps, (v, ps) ∈ (load_mime_mapping M).mime_patterns ∧ Pat.wordPat v ∈ ps := by
  suffices h : ∀ T : MimeTables,
      (∀ v ∈ T.valid_mimes, ∃ ps, (v, ps) ∈ T.mime_patterns ∧ Pat.wordPat v ∈ ps) →
      ∀ v ∈ (M.foldl loadRow T).valid_mimes,
        ∃ ps, (v, ps) ∈ (M.foldl loadRow T).mime_patterns ∧ Pat.wordPat v ∈ ps by
    exact h emptyTables (by simp [emptyTables])
  induction M with
  | nil => intro T hT; simpa using hT
  | cons r rest ih =>
    intro T hT
    simp only [List.foldl_cons]
    refine ih (loadRow T r) ?_
    intro v hv
    rcases mem_setAdd _ _ _ hv with hv' | hv'
    · obtain ⟨ps', hm, hsub⟩ := appendPats_mem_self T.mime_patterns (lowerS (stripS r.2))
        [Pat.wordPat (lowerS (stripS r.1)), Pat.suffixPat (lowerS (stripS r.1)),
         Pat.wordPat (lowerS (stripS r.2))]
      refine ⟨ps', ?_, ?_⟩
      · show (v, ps') ∈ appendPats T.mime_patterns (lowerS (stripS r.2)) _
        rw [hv']
        exact hm
      · rw [hv']
        exact hsub _ (by simp)
    · obtain ⟨ps, hm, hpat⟩ := hT v hv'
      obtain ⟨ps'', hm', hsub⟩ := appendPats_mem_preserve T.mime_patterns (lowerS (stripS r.2)) v
        [Pat.wordPat (lowerS (stripS r.1)), Pat.suffixPat (lowerS (stripS r.1)),
         Pat.wordPat (lowerS (stripS r.2))] ps hm
      exact ⟨ps'', hm', hsub _ hpat⟩

/-! ### Shape lemmas for one iteration of the row loop -/

theorem processRow_skip (T : MimeTables) (b : Buckets) (entry : String)
    (rest : List String) (h : rest[0]? >>= pyInt? = none) :
    processRow T b (entry :: rest) = some b := by
  simp [processRow, h]

theorem processRow_valid (T : MimeTables) (b : Buckets) (entry : String)
    (rest : List String) (count : Int)
    (hp : rest[0]? >>= pyInt? = some count) (hv : entry ∈ T.valid_mimes) :
    processRow T b (entry :: rest) = some { b with
      valid_mime_aggregate := bumpInt b.valid_mime_aggregate entry count
      valid_entry_map := pushEntry b.valid_entry_map entry entry
      valid_mime_sum := b.valid_mime_sum + count } := by
  simp [processRow, hp, hv]

theorem processRow_potential (T : MimeTables) (b : Buckets) (entry : String)
    (rest : List String) (count : Int) (m : String)
    (hp : rest[0]? >>= pyInt? = some count) (hv : entry ∉ T.valid_mimes)
    (hm : match_mime T (normalize_entry entry) = some m) (hne : m ≠ "") :
    processRow T b (entry :: rest) = some { b with
      potential_mime_aggregate := bumpInt b.potential_mime_aggregate m count
      potential_entry_map := pushEntry b.potential_entry_map m entry
      possible_mime_sum := b.possible_mime_sum + count } := by
  simp [processRow, hp, hv, hm, hne]

theorem processRow_falsy (T : MimeTables) (b : Buckets) (entry : String)
    (rest : List String) (count : Int)
    (hp : rest[0]? >>= pyInt? = some count) (hv : entry ∉ T.valid_mimes)
    (hm : match_mime T (normalize_entry entry) = some "") :
    processRow T b (entry :: rest) = some { b with
      invalid_mime_aggregate := bumpInt b.invalid_mime_aggregate entry count
      invalid_entry_map := pushEntry b.invalid_entry_map entry entry
      invalid_mime_sum := b.invalid_mime_sum + count } := by
  simp [processRow, hp, hv, hm]

theorem processRow_invalid (T : MimeTables) (b : Buckets) (entry : String)
    (rest : List String) (count : Int)
    (hp : rest[0]? >>= pyInt? = some count) (hv : entry ∉ T.valid_mimes)
    (hm : match_mime T (normalize_entry entry) = none) :
    processRow T b (entry :: rest) = some { b with
      invalid_mime_aggregate := bumpInt b.invalid_mime_aggregate entry count
      invalid_entry_map := pushEntry b.invalid_entry_map entry entry
      invalid_mime_sum := b.invalid_mime_sum + count } := by
  simp [processRow, hp, hv, hm]

/-! ### The sum invariant -/

theorem sumStep_shift (l : List (List String)) (a : Int) :
    l.foldl sumStep a = a + l.foldl sumStep 0 := by
  induction l generalizing a with
  | nil => simp
  | cons r l ih =>
    have hstep : ∀ x : Int, sumStep x r = x + sumStep 0 r := by
      intro x
      unfold sumStep
      cases r[1]? >>= pyInt? <;> simp
    simp only [List.foldl_cons]
    rw [ih (sumStep a r), ih (sumStep 0 r), hstep a]
    ring

theorem foldlM_sums (T : MimeTables) (l : List (List String)) (b₀ b : Buckets)
    (h : l.foldlM (processRow T) b₀ = some b) :
    b.valid_mime_sum + b.possible_mime_sum + b.invalid_mime_sum =
      b₀.valid_mime_sum + b₀.possible_mime_sum + b₀.invalid_mime_sum +
        l.foldl sumStep 0 := by
  induction l generalizing b₀ with
  | nil =>
    simp only [List.foldlM_nil, Option.pure_def, Option.some.injEq] at h
    subst h
    simp
  | cons r l ih =>
    simp only [List.foldlM_cons] at h
    match r with
    | [] =>
      simp [processRow] at h
    | entry :: rest =>
      have hsum1 : (entry :: rest)[1]? = rest[0]? := by simp
      cases hp : rest[0]? >>= pyInt? with
      | none =>
        rw [processRow_skip T b₀ entry rest hp] at h
        have := ih b₀ h
        rw [this]
        have : sumStep 0 (entry :: rest) = 0 := by simp [sumStep, hsum1, hp]
        rw [List.foldl_cons, sumStep_shift, this]
        ring
      | some count =>
        have hstep : sumStep 0 (entry :: rest) = count := by simp [sumStep, hsum1, hp]
        by_cases hv : entry ∈ T.valid_mimes
        · rw [processRow_valid T b₀ entry rest count hp hv] at h
          have := ih _ h
          rw [this]
          rw [List.foldl_cons, hstep, sumStep_shift l count]
          simp
          ring
        · cases hm : match_mime T (normalize_entry entry) with
          | some m =>
            by_cases hne : m = ""
            · rw [hne] at hm
              rw [processRow_falsy T b₀ entry rest count hp hv hm] at h
              have := ih _ h
              rw [this]
              rw [List.foldl_cons, hstep, sumStep_shift l count]
              simp
              ring
            · rw [processRow_potential T b₀ entry rest count m hp hv hm hne] at h
              have := ih _ h
              rw [this]
              rw [List.foldl_cons, hstep, sumStep_shift l count]
              simp
              ring
          | none =>
            rw [processRow_invalid T b₀ entry rest count hp hv hm] at h
            have := ih _ h
            rw [this]
            rw [List.foldl_cons, hstep, sumStep_shift l count]
            simp
            ring

theorem process_counts_sum (T : MimeTables) (rows : List (List String)) (b : Buckets)
    (h : process_counts T rows = some b) :
    b.valid_mime_sum + b.possible_mime_sum + b.invalid_mime_sum = sum_counts rows := by
  have := foldlM_sums T (rows.drop 1) initBuckets b h
  simpa [initBuckets, sum_counts] using this

/-! ### Tracking one valid entry through the row loop -/

theorem entryStep_shift (entry : String) (r : List String) (x : Int) :
    entryStep entry x r = x + entryStep entry 0 r := by
  unfold entryStep
  cases r with
  | nil => simp
  | cons e rest =>
    by_cases he : e = entry
    · simp only [he, if_true]
      cases rest[0]? >>= pyInt? <;> simp
    · simp [he]

theorem entrySum_shift (entry : String) (l : List (List String)) (a : Int) :
    l.foldl (entryStep entry) a = a + l.foldl (entryStep entry) 0 := by
  induction l generalizing a with
  | nil => simp
  | cons r l ih =>
    simp only [List.foldl_cons]
    rw [ih (entryStep entry a r), ih (entryStep entry 0 r), entryStep_shift entry r a]
    ring

theorem entrySum_cons (entry : String) (r : List String) (l : List (List String)) :
    entrySum entry (r :: l) = entryStep entry 0 r + entrySum entry l := by
  unfold entrySum
  rw [List.foldl_cons, entrySum_shift entry l (entryStep entry 0 r)]

theorem foldlM_valid_entry (T : MimeTables) (entry : String)
    (hv : entry ∈ T.valid_mimes) (l : List (List String)) (b₀ b : Buckets)
    (h : l.foldlM (processRow T) b₀ = some b) :
    lookupInt b.valid_mime_aggregate entry
      = lookupInt b₀.valid_mime_aggregate entry + entrySum entry l
    ∧ ((∀ p ∈ b₀.potential_entry_map, entry ∉ p.2) →
        ∀ p ∈ b.potential_entry_map, entry ∉ p.2)
    ∧ ((∀ p ∈ b₀.invalid_mime_aggregate, p.1 ≠ entry) →
        ∀ p ∈ b.invalid_mime_aggregate, p.1 ≠ entry)
    ∧ ((∀ p ∈ b₀.invalid_entry_map, p.1 ≠ entry) →
        ∀ p ∈ b.invalid_entry_map, p.1 ≠ entry) := by
  induction l generalizing b₀ with
  | nil =>
    simp only [List.foldlM_nil, Option.pure_def, Option.some.injEq] at h
    subst h
    exact ⟨by simp [entrySum], fun h => h, fun h => h, fun h => h⟩
  | cons r l ih =>
    simp only [List.foldlM_cons] at h
    match r with
    | [] =>
      simp [processRow] at h
    | e :: rest =>
      cases hp : rest[0]? >>= pyInt? with
      | none =>
        rw [processRow_skip T b₀ e rest hp] at h
        have hstep : entryStep entry 0 (e :: rest) = 0 := by
          by_cases he : e = entry <;> simp [entryStep, he, hp]
        obtain ⟨h1, h2, h3, h4⟩ := ih b₀ h
        rw [entrySum_cons, hstep]
        exact ⟨by rw [h1]; ring, h2, h3, h4⟩
      | some count =>
        by_cases hve : e ∈ T.valid_mimes
        · rw [processRow_valid T b₀ e rest count hp hve] at h
          obtain ⟨h1, h2, h3, h4⟩ := ih _ h
          simp only at h1 h2 h3 h4
          by_cases he : e = entry
          · have hstep : entryStep entry 0 (e :: rest) = count := by
              simp [entryStep, he, hp]
            rw [entrySum_cons, hstep]
            rw [he] at h1
            refine ⟨?_, h2, h3, h4⟩
            rw [h1]
            have hb : lookupInt (bumpInt b₀.valid_mime_aggregate entry count) entry
                = lookupInt b₀.valid_mime_aggregate entry + count := by
              simp [lookupInt, lookupL_bumpInt_self]
            rw [hb]
            ring
          · have hstep : entryStep entry 0 (e :: rest) = 0 := by
              simp [entryStep, he]
            rw [entrySum_cons, hstep]
            refine ⟨?_, h2, h3, h4⟩
            rw [h1]
            have hb : lookupInt (bumpInt b₀.valid_mime_aggregate e count) entry
                = lookupInt b₀.valid_mime_aggregate entry := by
              unfold lookupInt
              rw [lookupL_bumpInt_ne _ _ _ _ (Ne.symm he)]
            rw [hb]
            ring
        · have he : e ≠ entry := fun hc => hve (by rw [hc]; exact hv)
          have hstep : entryStep entry 0 (e :: rest) = 0 := by
            simp [entryStep, he]
          cases hm : match_mime T (normalize_entry e) with
          | some m =>
            by_cases hne : m = ""
            · rw [hne] at hm
              rw [processRow_falsy T b₀ e rest count hp hve hm] at h
              obtain ⟨h1, h2, h3, h4⟩ := ih _ h
              simp only at h1 h2 h3 h4
              rw [entrySum_cons, hstep]
              refine ⟨by rw [h1]; ring, h2, ?_, ?_⟩
              · intro hinv
                exact h3 (bumpInt_keys _ _ _ _ hinv he)
              · intro hinv
                exact h4 (pushEntry_keys _ _ _ _ hinv he)
            · rw [processRow_potential T b₀ e rest count m hp hve hm hne] at h
              obtain ⟨h1, h2, h3, h4⟩ := ih _ h
              simp only at h1 h2 h3 h4
              rw [entrySum_cons, hstep]
              refine ⟨by rw [h1]; ring, ?_, h3, h4⟩
              intro hpot
              exact h2 (pushEntry_vals _ _ _ _ hpot (Ne.symm he))
          | none =>
            rw [processRow_invalid T b₀ e rest count hp hve hm] at h
            obtain ⟨h1, h2, h3, h4⟩ := ih _ h
            simp only at h1 h2 h3 h4
            rw [entrySum_cons, hstep]
            refine ⟨by rw [h1]; ring, h2, ?_, ?_⟩
            · intro hinv
              exact h3 (bumpInt_keys _ _ _ _ hinv he)
            · intro hinv
              exact h4 (pushEntry_keys _ _ _ _ hinv he)

/-! ### Skipped rows contribute nothing -/

theorem foldlM_skip_insert (T : MimeTables) (b₀ : Buckets)
    (l₁ l₂ : List (List String)) (entry : String) (rest : List String)
    (hbad : rest[0]? >>= pyInt? = none) :
    (l₁ ++ (entry :: rest) :: l₂).foldlM (processRow T) b₀
      = (l₁ ++ l₂).foldlM (processRow T) b₀ := by
  rw [List.foldlM_append, List.foldlM_append]
  cases hres : l₁.foldlM (processRow T) b₀ with
  | none => rfl
  | some b' =>
    have hred : ∀ l : List (List String),
        (some b' >>= fun init => List.foldlM (processRow T) init l)
          = List.foldlM (processRow T) b' l := fun _ => rfl
    rw [hred, hred, List.foldlM_cons, processRow_skip T b' entry rest hbad]
    rfl

theorem foldl_sum_skip_insert (l₁ l₂ : List (List String)) (entry : String)
    (rest : List String) (a : Int) (hbad : rest[0]? >>= pyInt? = none) :
    (l₁ ++ (entry :: rest) :: l₂).foldl sumStep a = (l₁ ++ l₂).foldl sumStep a := by
  rw [List.foldl_append, List.foldl_append, List.foldl_cons]
  have : sumStep (l₁.foldl sumStep a) (entry :: rest) = l₁.foldl sumStep a := by
    simp [sumStep, hbad]
  rw [this]

/-! ### The global tables pass through processing unchanged -/

theorem foldlM_G_frame (T : MimeTables) (l : List (List String)) (b₀ : Buckets)
    (out : MimeTables × Buckets) (h : l.foldlM processRowG (T, b₀) = some out) :
    out.1 = T ∧ l.foldlM (processRow T) b₀ = some out.2 := by
  induction l generalizing b₀ with
  | nil =>
    simp only [List.foldlM_nil, Option.pure_def, Option.some.injEq] at h
    subst h
    exact ⟨rfl, rfl⟩
  | cons r l ih =>
    simp only [List.foldlM_cons] at h ⊢
    cases hr : processRow T b₀ r with
    | none =>
      rw [show processRowG (T, b₀) r = none by simp [processRowG, hr]] at h
      simp at h
    | some b' =>
      rw [show processRowG (T, b₀) r = some (T, b') by simp [processRowG, hr]] at h
      exact ih b' h

/-! ### The environment-extraction regex -/

theorem startsWithL_iff (p s : List Char) :
    startsWithL p s = true ↔ ∃ t, s = p ++ t := by
  induction p generalizing s with
  | nil => simp [startsWithL]
  | cons c p ih =>
    cases s with
    | nil =>
      simp only [startsWithL, List.cons_append]
      constructor
      · intro h; exact absurd h (by simp)
      · rintro ⟨t, ht⟩; simp at ht
    | cons d s =>
      simp only [startsWithL, Bool.and_eq_true, beq_iff_eq, ih, List.cons_append,
        List.cons.injEq]
      constructor
      · rintro ⟨hcd, t, ht⟩; exact ⟨t, hcd.symm, ht⟩
      · rintro ⟨t, hcd, ht⟩; exact ⟨hcd.symm, t, ht⟩

theorem lit2_ne_nil : lit2 ≠ [] := by decide

theorem envShortest_cons (c : Char) (rest : List Char) :
    envShortest (c :: rest) =
      if startsWithL lit2 (c :: rest) then some []
      else if c = '\n' then none
      else (envShortest rest).map (fun m => c :: m) := rfl

theorem searchEnv_cons (c : Char) (rest : List Char) :
    searchEnv (c :: rest) =
      match tryHere (c :: rest) with
      | some m => some m
      | none => searchEnv rest := rfl

theorem envShortest_sound (cs : List Char) (m : List Char)
    (h : envShortest cs = some m) :
    (∃ post, cs = m ++ lit2 ++ post) ∧ ∀ c ∈ m, c ≠ '\n' := by
  induction cs generalizing m with
  | nil =>
    rw [show envShortest [] = none by decide] at h
    exact absurd h (by simp)
  | cons c rest ih =>
    rw [envShortest_cons] at h
    by_cases h1 : startsWithL lit2 (c :: rest) = true
    · rw [if_pos h1, Option.some.injEq] at h
      subst h
      obtain ⟨t, ht⟩ := (startsWithL_iff _ _).mp h1
      exact ⟨⟨t, by simpa using ht⟩, by simp⟩
    · rw [if_neg h1] at h
      by_cases h2 : c = '\n'
      · rw [if_pos h2] at h
        exact absurd h (by simp)
      · rw [if_neg h2] at h
        obtain ⟨m', hm', hmap⟩ := Option.map_eq_some'.mp h
        obtain ⟨⟨post, hpost⟩, hnl⟩ := ih m' hm'
        subst hmap
        refine ⟨⟨post, by simp [hpost]⟩, ?_⟩
        intro d hd
        rcases List.mem_cons.mp hd with hd | hd
        · subst hd; exact h2
        · exact hnl d hd

theorem envShortest_complete (m : List Char) (post cs : List Char)
    (hcs : cs = m ++ lit2 ++ post) (hm : ∀ c ∈ m, c ≠ '\n') :
    (envShortest cs).isSome = true := by
  induction m generalizing cs with
  | nil =>
    simp only [List.nil_append] at hcs
    cases cs with
    | nil =>
      exact absurd hcs.symm (by simp [lit2_ne_nil])
    | cons c rest =>
      rw [envShortest_cons]
      have h1 : startsWithL lit2 (c :: rest) = true :=
        (startsWithL_iff _ _).mpr ⟨post, hcs⟩
      rw [if_pos h1]
      rfl
  | cons c m' ih =>
    subst hcs
    simp only [List.cons_append]
    rw [envShortest_cons]
    by_cases h1 : startsWithL lit2 (c :: (m' ++ lit2 ++ post)) = true
    · rw [if_pos h1]; rfl
    · rw [if_neg h1]
      have hc : ¬ c = '\n' := hm c (List.mem_cons_self _ _)
      rw [if_neg hc]
      have := ih (m' ++ lit2 ++ post) rfl (fun d hd => hm d (List.mem_cons_of_mem _ hd))
      rw [Option.isSome_map']
      exact this

theorem tryHere_sound (cs : List Char) (m : List Char) (h : tryHere cs = some m) :
    (∃ post, cs = lit1 ++ m ++ lit2 ++ post) ∧ ∀ c ∈ m, c ≠ '\n' := by
  unfold tryHere at h
  by_cases h1 : startsWithL lit1 cs = true
  · rw [if_pos h1] at h
    obtain ⟨t, ht⟩ := (startsWithL_iff _ _).mp h1
    have hdrop : cs.drop lit1.length = t := by
      rw [ht, List.drop_left]
    rw [hdrop] at h
    obtain ⟨⟨post, hpost⟩, hnl⟩ := envShortest_sound t m h
    exact ⟨⟨post, by rw [ht, hpost]; simp⟩, hnl⟩
  · rw [if_neg h1] at h
    exact absurd h (by simp)

theorem tryHere_complete (cs : List Char) (m post : List Char)
    (hcs : cs = lit1 ++ m ++ lit2 ++ post) (hm : ∀ c ∈ m, c ≠ '\n') :
    (tryHere cs).isSome = true := by
  unfold tryHere
  have h1 : startsWithL lit1 cs = true :=
    (startsWithL_iff _ _).mpr ⟨m ++ lit2 ++ post, by simp [hcs]⟩
  rw [if_pos h1]
  have hdrop : cs.drop lit1.length = m ++ lit2 ++ post := by
    rw [hcs, show lit1 ++ m ++ lit2 ++ post = lit1 ++ (m ++ lit2 ++ post) by simp,
      List.drop_left]
  rw [hdrop]
  exact envShortest_complete m post _ rfl hm

theorem searchEnv_sound (s : List Char) (m : List Char)
    (h : searchEnv s = some m) : EnvDecomp s m := by
  induction s with
  | nil =>
    rw [show searchEnv [] = none by decide] at h
    exact absurd h (by simp)
  | cons c rest ih =>
    rw [searchEnv_cons] at h
    cases ht : tryHere (c :: rest) with
    | some m' =>
      rw [ht] at h
      obtain rfl : m' = m := by simpa using h
      obtain ⟨⟨post, hpost⟩, hnl⟩ := tryHere_sound _ _ ht
      exact ⟨⟨[], post, by simpa using hpost⟩, hnl⟩
    | none =>
      rw [ht] at h
      obtain ⟨⟨pre, post, hpre⟩, hnl⟩ := ih h
      exact ⟨⟨c :: pre, post, by simp [hpre]⟩, hnl⟩

theorem searchEnv_complete (s : List Char) (m : List Char) (h : EnvDecomp s m) :
    (searchEnv s).isSome = true := by
  obtain ⟨⟨pre, post, hpre⟩, hnl⟩ := h
  induction pre generalizing s with
  | nil =>
    simp only [List.nil_append] at hpre
    have hth := tryHere_complete s m post (by simpa using hpre) hnl
    cases s with
    | nil =>
      exact absurd (by simpa using hpre) (by simp [show lit1 ≠ [] by decide])
    | cons c rest =>
      rw [searchEnv_cons]
      cases ht : tryHere (c :: rest) with
      | some m' => rfl
      | none => rw [ht] at hth; simp at hth
  | cons c pre' ih =>
    cases s with
    | nil => simp at hpre
    | cons d rest =>
      obtain ⟨hdc, hrest⟩ := List.cons.injEq .. ▸ hpre
      rw [searchEnv_cons]
      cases ht : tryHere (d :: rest) with
      | some m' => rfl
      | none =>
        exact ih rest (by simpa using hrest)

/-! ### The per-environment loop of main -/

theorem runEnvs_nil (T : MimeTables) (dir : List String)
    (fs : List (String × List (List String))) (tot : Int) :
    runEnvs T dir fs [] tot = ⟨[totalMsg tot], [], Except.ok tot⟩ := rfl

theorem runEnvs_cons (T : MimeTables) (dir : List String)
    (fs : List (String × List (List String))) (spec : EnvSpec)
    (rest : List EnvSpec) (tot : Int) :
    runEnvs T dir fs (spec :: rest) tot =
      match find_file dir spec.infile with
      | none => ⟨[], [], Except.error Fault.typeError⟩
      | some path =>
        match lookupL path fs with
        | none => ⟨[], [], Except.error Fault.openError⟩
        | some rows =>
          match process_counts T rows with
          | none => ⟨[], [], Except.error Fault.indexError⟩
          | some b =>
            let r := runEnvs T dir fs rest (tot + sum_counts rows)
            ⟨reportMsgs (extract_env path) b ++ r.messages,
             reportFiles spec b ++ r.written, r.outcome⟩ := rfl

theorem runEnvs_found_missing (T : MimeTables) (dir : List String)
    (fs : List (String × List (List String))) (spec : EnvSpec)
    (rest : List EnvSpec) (tot : Int)
    (hf : find_file dir spec.infile = none) :
    runEnvs T dir fs (spec :: rest) tot = ⟨[], [], Except.error Fault.typeError⟩ := by
  rw [runEnvs_cons, hf]

theorem runEnvs_cons_openErr (T : MimeTables) (dir : List String)
    (fs : List (String × List (List String))) (spec : EnvSpec)
    (rest : List EnvSpec) (tot : Int) (path : String)
    (hf : find_file dir spec.infile = some path) (hl : lookupL path fs = none) :
    runEnvs T dir fs (spec :: rest) tot = ⟨[], [], Except.error Fault.openError⟩ := by
  rw [runEnvs_cons, hf]
  simp only [hl]

theorem runEnvs_cons_idxErr (T : MimeTables) (dir : List String)
    (fs : List (String × List (List String))) (spec : EnvSpec)
    (rest : List EnvSpec) (tot : Int) (path : String) (rows : List (List String))
    (hf : find_file dir spec.infile = some path) (hl : lookupL path fs = some rows)
    (hpc : process_counts T rows = none) :
    runEnvs T dir fs (spec :: rest) tot = ⟨[], [], Except.error Fault.indexError⟩ := by
  rw [runEnvs_cons, hf]
  simp only [hl, hpc]

theorem runEnvs_cons_ok (T : MimeTables) (dir : List String)
    (fs : List (String × List (List String))) (spec : EnvSpec)
    (rest : List EnvSpec) (tot : Int) (path : String) (rows : List (List String))
    (b : Buckets)
    (hf : find_file dir spec.infile = some path) (hl : lookupL path fs = some rows)
    (hpc : process_counts T rows = some b) :
    runEnvs T dir fs (spec :: rest) tot =
      ⟨reportMsgs (extract_env path) b ++
         (runEnvs T dir fs rest (tot + sum_counts rows)).messages,
       reportFiles spec b ++ (runEnvs T dir fs rest (tot + sum_counts rows)).written,
       (runEnvs T dir fs rest (tot + sum_counts rows)).outcome⟩ := by
  rw [runEnvs_cons, hf]
  simp only [hl, hpc]

theorem runEnvs_error (T : MimeTables) (dir : List String)
    (fs : List (String × List (List String))) (specs : List EnvSpec) (tot : Int)
    (h : ∃ spec ∈ specs, find_file dir spec.infile = none) :
    ∃ f, (runEnvs T dir fs specs tot).outcome = Except.error f := by
  induction specs generalizing tot with
  | nil => simp at h
  | cons spec rest ih =>
    cases hf : find_file dir spec.infile with
    | none =>
      rw [runEnvs_found_missing T dir fs spec rest tot hf]
      exact ⟨Fault.typeError, rfl⟩
    | some path =>
      cases hl : lookupL path fs with
      | none =>
        rw [runEnvs_cons_openErr T dir fs spec rest tot path hf hl]
        exact ⟨Fault.openError, rfl⟩
      | some rows =>
        cases hpc : process_counts T rows with
        | none =>
          rw [runEnvs_cons_idxErr T dir fs spec rest tot path rows hf hl hpc]
          exact ⟨Fault.indexError, rfl⟩
        | some b =>
          rw [runEnvs_cons_ok T dir fs spec rest tot path rows b hf hl hpc]
          obtain ⟨spec', hspec', hmiss⟩ := h
          rcases List.mem_cons.mp hspec' with hspec' | hspec'
          · subst hspec'
            rw [hmiss] at hf
            exact absurd hf (by simp)
          · exact ih (tot + sum_counts rows) ⟨spec', hspec', hmiss⟩

theorem runEnvs_messages_shape (T : MimeTables) (dir : List String)
    (fs : List (String × List (List String))) (specs : List EnvSpec) (tot : Int) :
    ∀ msg ∈ (runEnvs T dir fs specs tot).messages,
      (∃ env n, msg = potentialMsg env n ∨ msg = validMsg env n ∨ msg = invalidMsg env n) ∨
      ∃ n : Int, msg = totalMsg n := by
  induction specs generalizing tot with
  | nil =>
    intro msg hmsg
    rw [runEnvs_nil] at hmsg
    simp only [List.mem_singleton] at hmsg
    exact Or.inr ⟨tot, hmsg⟩
  | cons spec rest ih =>
    intro msg hmsg
    cases hf : find_file dir spec.infile with
    | none =>
      rw [runEnvs_found_missing T dir fs spec rest tot hf] at hmsg
      simp at hmsg
    | some path =>
      cases hl : lookupL path fs with
      | none =>
        rw [runEnvs_cons_openErr T dir fs spec rest tot path hf hl] at hmsg
        simp at hmsg
      | some rows =>
        cases hpc : process_counts T rows with
        | none =>
          rw [runEnvs_cons_idxErr T dir fs spec rest tot path rows hf hl hpc] at hmsg
          simp at hmsg
        | some b =>
          rw [runEnvs_cons_ok T dir fs spec rest tot path rows b hf hl hpc] at hmsg
          simp only [List.mem_append] at hmsg
          rcases hmsg with hmsg | hmsg
          · simp only [reportMsgs, List.mem_cons, List.mem_singleton] at hmsg
            rcases hmsg with h | h | h
            · exact Or.inl ⟨extract_env path, b.possible_mime_sum, Or.inl h⟩
            · exact Or.inl ⟨extract_env path, b.valid_mime_sum, Or.inr (Or.inl h)⟩
            · rcases h with h | h
              · exact Or.inl ⟨extract_env path, b.invalid_mime_sum, Or.inr (Or.inr h)⟩
              · simp at h
          · exact ih (tot + sum_counts rows) msg hmsg

theorem runEnvs_fs_ext (T : MimeTables) (dir : List String)
    (fs₁ fs₂ : List (String × List (List String)))
    (hfs : ∀ k, lookupL k fs₁ = lookupL k fs₂) (specs : List EnvSpec) (tot : Int) :
    runEnvs T dir fs₁ specs tot = runEnvs T dir fs₂ specs tot := by
  induction specs generalizing tot with
  | nil => rfl
  | cons spec rest ih =>
    cases hf : find_file dir spec.infile with
    | none =>
      rw [runEnvs_found_missing T dir fs₁ spec rest tot hf,
        runEnvs_found_missing T dir fs₂ spec rest tot hf]
    | some path =>
      cases hl : lookupL path fs₂ with
      | none =>
        rw [runEnvs_cons_openErr T dir fs₁ spec rest tot path hf ((hfs path).trans hl),
          runEnvs_cons_openErr T dir fs₂ spec rest tot path hf hl]
      | some rows =>
        cases hpc : process_counts T rows with
        | none =>
          rw [runEnvs_cons_idxErr T dir fs₁ spec rest tot path rows hf
              ((hfs path).trans hl) hpc,
            runEnvs_cons_idxErr T dir fs₂ spec rest tot path rows hf hl hpc]
        | some b =>
          rw [runEnvs_cons_ok T dir fs₁ spec rest tot path rows b hf
              ((hfs path).trans hl) hpc,
            runEnvs_cons_ok T dir fs₂ spec rest tot path rows b hf hl hpc,
            ih (tot + sum_counts rows)]

/-! ### Printed lines are distinguishable by their first character -/

theorem head_ne {a b : String} {c d : Char} (ha : a.data.head? = some c)
    (hb : b.data.head? = some d) (hcd : c ≠ d) : a ≠ b := by
  intro he
  rw [he, hb] at ha
  exact hcd (Option.some.inj ha).symm

theorem potentialMsg_head (env : Option String) (n : Int) :
    (potentialMsg env n).data.head? = some 'S' := by
  simp only [potentialMsg, String.data_append]
  rfl

theorem validMsg_head (env : Option String) (n : Int) :
    (validMsg env n).data.head? = some 'S' := by
  simp only [validMsg, String.data_append]
  rfl

theorem invalidMsg_head (env : Option String) (n : Int) :
    (invalidMsg env n).data.head? = some 'S' := by
  simp only [invalidMsg, String.data_append]
  rfl

theorem totalMsg_head (n : Int) : (totalMsg n).data.head? = some 'T' := by
  simp only [totalMsg, String.data_append]
  rfl

theorem fnf_head (s : String) :
    ("File not found: " ++ s).data.head? = some 'F' := by
  simp only [String.data_append]
  rfl

theorem runEnvs_no_fnf (T : MimeTables) (dir : List String)
    (fs : List (String × List (List String))) (specs : List EnvSpec) (tot : Int) :
    ∀ msg ∈ (runEnvs T dir fs specs tot).messages, ∀ s : String,
      msg ≠ "File not found: " ++ s := by
  intro msg hmsg s
  rcases runEnvs_messages_shape T dir fs specs tot msg hmsg with ⟨env, n, h | h | h⟩ | ⟨n, h⟩
  · subst h; exact head_ne (potentialMsg_head env n) (fnf_head s) (by decide)
  · subst h; exact head_ne (validMsg_head env n) (fnf_head s) (by decide)
  · subst h; exact head_ne (invalidMsg_head env n) (fnf_head s) (by decide)
  · subst h; exact head_ne (totalMsg_head n) (fnf_head s) (by decide)

/-! ### Pattern-table keys are registered mimes -/

theorem appendPats_keys (d : List (String × List Pat)) (k : String)
    (ps : List Pat) :
    ∀ q ∈ appendPats d k ps, q.1 = k ∨ ∃ v, (q.1, v) ∈ d := by
  induction d with
  | nil =>
    intro q hq
    simp only [appendPats, List.mem_singleton] at hq
    subst hq
    exact Or.inl rfl
  | cons p rest ih =>
    obtain ⟨a, b⟩ := p
    intro q hq
    by_cases ha : a = k
    · subst ha
      simp only [appendPats, ite_true, eq_self_iff_true, if_true, List.mem_cons] at hq
      rcases hq with hq | hq
      · subst hq; exact Or.inl rfl
      · exact Or.inr ⟨q.2, List.mem_cons_of_mem _ (by simpa using hq)⟩
    · simp only [appendPats, ha, if_false, List.mem_cons] at hq
      rcases hq with hq | hq
      · subst hq; exact Or.inr ⟨b, List.mem_cons_self _ _⟩
      · rcases ih q hq with h | ⟨v, hv⟩
        · exact Or.inl h
        · exact Or.inr ⟨v, List.mem_cons_of_mem _ hv⟩

theorem load_keys_valid (M : List (String × String)) :
    ∀ q ∈ (load_mime_mapping M).mime_patterns,
      q.1 ∈ (load_mime_mapping M).valid_mimes := by
  suffices h : ∀ T : MimeTables,
      (∀ q ∈ T.mime_patterns, q.1 ∈ T.valid_mimes) →
      ∀ q ∈ (M.foldl loadRow T).mime_patterns,
        q.1 ∈ (M.foldl loadRow T).valid_mimes by
    exact h emptyTables (by simp [emptyTables])
  induction M with
  | nil => intro T hT; simpa using hT
  | cons r rest ih =>
    intro T hT
    simp only [List.foldl_cons]
    refine ih (loadRow T r) ?_
    intro q hq
    rcases appendPats_keys T.mime_patterns (lowerS (stripS r.2)) _ q hq with h | ⟨v, hv⟩
    · rw [h]
      exact mem_setAdd_self _ _
    · exact mem_setAdd_of_mem _ _ _ (hT (q.1, v) hv)

theorem matchInPatterns_mem (l : List (String × List Pat)) (e m : String)
    (h : matchInPatterns l e = some m) : ∃ ps, (m, ps) ∈ l := by
  obtain ⟨l₁, ps, l₂, heq, _, _⟩ := matchInPatterns_some l e m h
  refine ⟨ps, ?_⟩
  rw [heq]
  exact List.mem_append_right _ (List.mem_cons_self _ _)

/-! ### Claim theorems -/

/-- Claim C1, counterexample to the claim as stated: in a run of main with
an empty working directory, the first environment count file is absent and
find_file returns the null sentinel, yet the printed output is empty — in
particular no "File not found" message is printed, because the
sum_counts(None) call raises its TypeError before the check is reached —
and the run aborts with that uncaught fault. -/
theorem C1_counterexample :
    find_file [] "prod-us-only-mime-types-counts.csv" = none ∧
    (mainRun emptyTables [] []).messages = [] ∧
    (mainRun emptyTables [] []).outcome = Except.error Fault.typeError :=
  ⟨rfl, rfl, rfl⟩

/-- Claim C1 (amended): in every run of main in which one of the three
environment count files is absent, find_file returns the null sentinel and
the sum_counts call executes against that null path, raising an unhandled
TypeError that aborts the run at that environment — so the run does not
complete normally, the per-file detailed processing is never reached, and
the "File not found" message is not printed (indeed no run ever prints
one, that branch being unreachable). -/
theorem C1_missing_file_faults (T : MimeTables) (dir : List String)
    (fs : List (String × List (List String))) :
    (∀ (spec : EnvSpec) (rest : List EnvSpec) (tot : Int),
      find_file dir spec.infile = none →
      runEnvs T dir fs (spec :: rest) tot = ⟨[], [], Except.error Fault.typeError⟩)
    ∧ ((∃ spec ∈ files_envs, find_file dir spec.infile = none) →
        ∃ f, (mainRun T dir fs).outcome = Except.error f)
    ∧ (∀ msg ∈ (mainRun T dir fs).messages, ∀ s : String,
        msg ≠ "File not found: " ++ s) :=
  ⟨fun spec rest tot hf => runEnvs_found_missing T dir fs spec rest tot hf,
   fun h => runEnvs_error T dir fs files_envs 0 h,
   runEnvs_no_fnf T dir fs files_envs 0⟩

/-- Witness for the amended claim C1 at a concrete run: with an empty
directory the run aborts at the first environment with the TypeError and
its outcome is an error. -/
theorem C1_witness :
    runEnvs emptyTables [] []
      (⟨"prod-us-only-mime-types-counts.csv", "mime-type-mapping-US.csv",
        "valid-mime-type-mapping-US.csv", "invalid-mime-type-mapping-US.csv"⟩ ::
        files_envs.drop 1) 0
      = ⟨[], [], Except.error Fault.typeError⟩
    ∧ ∃ f, (mainRun emptyTables [] []).outcome = Except.error f := by
  constructor
  · exact (C1_missing_file_faults emptyTables [] []).1
      ⟨"prod-us-only-mime-types-counts.csv", "mime-type-mapping-US.csv",
       "valid-mime-type-mapping-US.csv", "invalid-mime-type-mapping-US.csv"⟩
      (files_envs.drop 1) 0 (by decide)
  · exact (C1_missing_file_faults emptyTables [] []).2.1
      ⟨⟨"prod-us-only-mime-types-counts.csv", "mime-type-mapping-US.csv",
        "valid-mime-type-mapping-US.csv", "invalid-mime-type-mapping-US.csv"⟩,
       by decide, by decide⟩

/-- Claim C2, counterexample to the claim as stated: with the mapping row
(zz, blank mime_type) the loader registers the empty-string mime, whose
bare word-boundary pattern matches any entry containing a word character.
The entry x is not a known mime and match_mime returns that earliest
matching mime — the empty string — yet the program's truthiness guard
treats it as falsy, so the row's count lands in the invalid bucket under
the raw entry and the potential bucket stays empty, against the claim's
attribution assertion. -/
theorem C2_counterexample :
    "x" ∉ (load_mime_mapping [("zz", "")]).valid_mimes
    ∧ match_mime (load_mime_mapping [("zz", "")]) (normalize_entry "x") = some ""
    ∧ (∃ q ∈ (load_mime_mapping [("zz", "")]).mime_patterns,
        q.2.any (fun p => p.search (normalize_entry "x")) = true)
    ∧ (process_counts (load_mime_mapping [("zz", "")])
          [["entry", "count"], ["x", "7"]]).map
        (fun b => (b.potential_mime_aggregate, b.possible_mime_sum,
                   b.invalid_mime_aggregate))
      = some ([], 0, [("x", 7)]) := by
  decide

/-- Claim C2 (amended): match_mime iterates the mime-to-patterns table in
insertion order and returns the first mime some pattern of which matches
the normalized candidate under an unanchored search, returning the
no-match sentinel exactly when no pattern of any mime matches.  In
process_counts the fuzzy branch guard is a truthiness test: when the
first-matching mime is non-empty, the entry's count is attributed to it in
the potential aggregate with the raw un-normalized entry text appended to
its entry list and the other buckets untouched; when the first-matching
mime is the empty string (registered only by a blank mime_type mapping
field) the guard is falsy and the row goes to the invalid bucket under the
raw entry instead. -/
theorem C2_first_match (T : MimeTables) (e : String) :
    (∀ m, match_mime T e = some m →
      ∃ l₁ ps l₂, T.mime_patterns = l₁ ++ (m, ps) :: l₂ ∧
        ps.any (fun p => p.search e) = true ∧
        ∀ q ∈ l₁, q.2.any (fun p => p.search e) = false)
    ∧ (match_mime T e = none →
        ∀ q ∈ T.mime_patterns, q.2.any (fun p => p.search e) = false)
    ∧ ((∃ q ∈ T.mime_patterns, q.2.any (fun p => p.search e) = true) →
        (match_mime T e).isSome = true)
    ∧ (∀ (b : Buckets) (entry : String) (rest : List String) (count : Int)
        (m : String), entry ∉ T.valid_mimes →
        rest[0]? >>= pyInt? = some count →
        match_mime T (normalize_entry entry) = some m → m ≠ "" →
        ∃ b', processRow T b (entry :: rest) = some b' ∧
          lookupInt b'.potential_mime_aggregate m
            = lookupInt b.potential_mime_aggregate m + count ∧
          lookupL m b'.potential_entry_map
            = some ((lookupL m b.potential_entry_map).getD [] ++ [entry]) ∧
          b'.valid_mime_aggregate = b.valid_mime_aggregate ∧
          b'.invalid_mime_aggregate = b.invalid_mime_aggregate ∧
          b'.possible_mime_sum = b.possible_mime_sum + count)
    ∧ (∀ (b : Buckets) (entry : String) (rest : List String) (count : Int),
        entry ∉ T.valid_mimes →
        rest[0]? >>= pyInt? = some count →
        match_mime T (normalize_entry entry) = some "" →
        ∃ b', processRow T b (entry :: rest) = some b' ∧
          lookupInt b'.invalid_mime_aggregate entry
            = lookupInt b.invalid_mime_aggregate entry + count ∧
          b'.potential_mime_aggregate = b.potential_mime_aggregate ∧
          b'.potential_entry_map = b.potential_entry_map ∧
          b'.possible_mime_sum = b.possible_mime_sum) := by
  refine ⟨?_, ?_, ?_, ?_, ?_⟩
  · intro m hm
    exact matchInPatterns_some T.mime_patterns e m hm
  · intro hn
    exact matchInPatterns_none T.mime_patterns e hn
  · intro hx
    exact matchInPatterns_isSome T.mime_patterns e hx
  · intro b entry rest count m hv hp hm hne
    refine ⟨_, processRow_potential T b entry rest count m hp hv hm hne, ?_, ?_,
      rfl, rfl, rfl⟩
    · simp [lookupInt, lookupL_bumpInt_self]
    · exact lookupL_pushEntry_self _ _ _
  · intro b entry rest count hv hp hm
    refine ⟨_, processRow_falsy T b entry rest count hp hv hm, ?_, rfl, rfl, rfl⟩
    simp [lookupInt, lookupL_bumpInt_self]

/-- Witness for the amended claim C2 at a concrete classification: on the
scenario tables the entry myfilejpg is matched to the non-empty mime
image/jpeg by an earliest matching pattern, and a row carrying it lands in
the potential bucket with the raw text appended. -/
theorem C2_witness :
    (∃ l₁ ps l₂, scenarioTables.mime_patterns = l₁ ++ ("image/jpeg", ps) :: l₂ ∧
      ps.any (fun p => p.search "myfilejpg") = true ∧
      ∀ q ∈ l₁, q.2.any (fun p => p.search "myfilejpg") = false)
    ∧ ∃ b', processRow scenarioTables initBuckets ("myfilejpg" :: ["3"]) = some b' ∧
        lookupInt b'.potential_mime_aggregate "image/jpeg"
          = lookupInt initBuckets.potential_mime_aggregate "image/jpeg" + 3 ∧
        lookupL "image/jpeg" b'.potential_entry_map
          = some ((lookupL "image/jpeg" initBuckets.potential_entry_map).getD []
              ++ ["myfilejpg"]) ∧
        b'.valid_mime_aggregate = initBuckets.valid_mime_aggregate ∧
        b'.invalid_mime_aggregate = initBuckets.invalid_mime_aggregate ∧
        b'.possible_mime_sum = initBuckets.possible_mime_sum + 3 := by
  constructor
  · exact (C2_first_match scenarioTables "myfilejpg").1 "image/jpeg" (by decide)
  · exact (C2_first_match scenarioTables "myfilejpg").2.2.2.1 initBuckets "myfilejpg"
      ["3"] 3 "image/jpeg" (by decide) (by decide) (by decide) (by decide)

/-- Claim C3: a count-file entry that exactly equals a known mime has all
its parsed counts added to the valid bucket under that mime, and the entry
appears neither among the contributing entries of the potential bucket nor
as a key of the invalid bucket. -/
theorem C3_valid_exact (T : MimeTables) (rows : List (List String)) (b : Buckets)
    (entry : String) (hv : entry ∈ T.valid_mimes)
    (h : process_counts T rows = some b) :
    lookupInt b.valid_mime_aggregate entry = entrySum entry (rows.drop 1)
    ∧ (∀ p ∈ b.potential_entry_map, entry ∉ p.2)
    ∧ (∀ p ∈ b.invalid_mime_aggregate, p.1 ≠ entry)
    ∧ (∀ p ∈ b.invalid_entry_map, p.1 ≠ entry) := by
  obtain ⟨h1, h2, h3, h4⟩ := foldlM_valid_entry T entry hv (rows.drop 1) initBuckets b h
  refine ⟨?_, ?_, ?_, ?_⟩
  · simpa [initBuckets, lookupInt, lookupL] using h1
  · exact h2 (by simp [initBuckets])
  · exact h3 (by simp [initBuckets])
  · exact h4 (by simp [initBuckets])

/-- Witness for claim C3 on the scenario file with the entry image/jpeg. -/
theorem C3_witness :
    lookupInt scenarioBuckets.valid_mime_aggregate "image/jpeg"
      = entrySum "image/jpeg" (scenarioRows.drop 1)
    ∧ (∀ p ∈ scenarioBuckets.potential_entry_map, "image/jpeg" ∉ p.2)
    ∧ (∀ p ∈ scenarioBuckets.invalid_mime_aggregate, p.1 ≠ "image/jpeg")
    ∧ (∀ p ∈ scenarioBuckets.invalid_entry_map, p.1 ≠ "image/jpeg") :=
  C3_valid_exact scenarioTables scenarioRows scenarioBuckets "image/jpeg"
    (by decide) (by decide)

/-- Claim C4: for every count file that process_counts completes, the
valid, potential and invalid totals sum to the sum_counts total of the
same file; and on the documented scenario the buckets are valid 5,
potential 3 under image/jpeg, invalid 2, the unparsable fourth row
contributing nothing to the total of 10. -/
theorem C4_sum_invariant :
    (∀ (T : MimeTables) (rows : List (List String)) (b : Buckets),
      process_counts T rows = some b →
      b.valid_mime_sum + b.possible_mime_sum + b.invalid_mime_sum = sum_counts rows)
    ∧ process_counts scenarioTables scenarioRows = some scenarioBuckets
    ∧ scenarioBuckets.valid_mime_sum = 5
    ∧ scenarioBuckets.potential_mime_aggregate = [("image/jpeg", 3)]
    ∧ scenarioBuckets.possible_mime_sum = 3
    ∧ scenarioBuckets.invalid_mime_sum = 2
    ∧ sum_counts scenarioRows = 10 :=
  ⟨process_counts_sum, by decide, by decide, by decide, by decide, by decide, by decide⟩

/-- Witness for claim C4: the invariant evaluated on the scenario file. -/
theorem C4_witness :
    scenarioBuckets.valid_mime_sum + scenarioBuckets.possible_mime_sum +
      scenarioBuckets.invalid_mime_sum = sum_counts scenarioRows :=
  C4_sum_invariant.1 scenarioTables scenarioRows scenarioBuckets (by decide)

/-- Claim C5: a row whose count field is missing or unparsable contributes
nothing anywhere: deleting it from the file changes neither the buckets of
process_counts, nor the sum_counts total, nor the serialized bytes of the
three report files; the skip produces no output of its own. -/
theorem C5_bad_rows (T : MimeTables) (hdr : List String)
    (l₁ l₂ : List (List String)) (entry : String) (rest : List String)
    (hbad : rest[0]? >>= pyInt? = none) :
    process_counts T (hdr :: (l₁ ++ (entry :: rest) :: l₂))
      = process_counts T (hdr :: (l₁ ++ l₂))
    ∧ sum_counts (hdr :: (l₁ ++ (entry :: rest) :: l₂))
      = sum_counts (hdr :: (l₁ ++ l₂))
    ∧ (process_counts T (hdr :: (l₁ ++ (entry :: rest) :: l₂))).map
        (fun b => (csvSerialize (write_potential_mime_types b),
                   csvSerialize (write_valid_mime_types b),
                   csvSerialize (write_invalid_mime_types b)))
      = (process_counts T (hdr :: (l₁ ++ l₂))).map
        (fun b => (csvSerialize (write_potential_mime_types b),
                   csvSerialize (write_valid_mime_types b),
                   csvSerialize (write_invalid_mime_types b))) := by
  have h1 : process_counts T (hdr :: (l₁ ++ (entry :: rest) :: l₂))
      = process_counts T (hdr :: (l₁ ++ l₂)) := by
    unfold process_counts
    simp only [List.drop_succ_cons, List.drop_zero]
    exact foldlM_skip_insert T initBuckets l₁ l₂ entry rest hbad
  have h2 : sum_counts (hdr :: (l₁ ++ (entry :: rest) :: l₂))
      = sum_counts (hdr :: (l₁ ++ l₂)) := by
    unfold sum_counts
    simp only [List.drop_succ_cons, List.drop_zero]
    exact foldl_sum_skip_insert l₁ l₂ entry rest 0 hbad
  exact ⟨h1, h2, by rw [h1]⟩

/-- Witness for claim C5: removing the badrow line of the scenario file
changes nothing. -/
theorem C5_witness :
    process_counts scenarioTables
        (["entry", "count"] :: ([["image/jpeg", "5"]] ++ ("badrow" :: ["x"]) :: []))
      = process_counts scenarioTables (["entry", "count"] :: ([["image/jpeg", "5"]] ++ []))
    ∧ sum_counts (["entry", "count"] :: ([["image/jpeg", "5"]] ++ ("badrow" :: ["x"]) :: []))
      = sum_counts (["entry", "count"] :: ([["image/jpeg", "5"]] ++ []))
    ∧ (process_counts scenarioTables
        (["entry", "count"] :: ([["image/jpeg", "5"]] ++ ("badrow" :: ["x"]) :: []))).map
        (fun b => (csvSerialize (write_potential_mime_types b),
                   csvSerialize (write_valid_mime_types b),
                   csvSerialize (write_invalid_mime_types b)))
      = (process_counts scenarioTables
          (["entry", "count"] :: ([["image/jpeg", "5"]] ++ []))).map
        (fun b => (csvSerialize (write_potential_mime_types b),
                   csvSerialize (write_valid_mime_types b),
                   csvSerialize (write_invalid_mime_types b))) :=
  C5_bad_rows scenarioTables ["entry", "count"] [["image/jpeg", "5"]] []
    "badrow" ["x"] (by decide)

/-- Claim C6: a mapping-file row (extension, mime) lower-cases and strips
both fields, adds the mime to the valid set, and appends to that mime's
pattern list, in this order, the word-bounded extension pattern, the
ends-with-extension pattern and the word-bounded full-mime pattern, the
other keys' pattern lists and positions untouched; the extension map
receives the exact mapping. -/
theorem C6_loader_row (T : MimeTables) (e m : String) :
    (loadRow T (e, m)).valid_mimes = setAdd T.valid_mimes (lowerS (stripS m))
    ∧ lowerS (stripS m) ∈ (loadRow T (e, m)).valid_mimes
    ∧ lookupL (lowerS (stripS m)) (loadRow T (e, m)).mime_patterns
        = some ((lookupL (lowerS (stripS m)) T.mime_patterns).getD [] ++
            [Pat.wordPat (lowerS (stripS e)), Pat.suffixPat (lowerS (stripS e)),
             Pat.wordPat (lowerS (stripS m))])
    ∧ (∀ k, k ≠ lowerS (stripS m) →
        lookupL k (loadRow T (e, m)).mime_patterns = lookupL k T.mime_patterns)
    ∧ (loadRow T (e, m)).ext_to_mime
        = dictInsert T.ext_to_mime (lowerS (stripS e)) (lowerS (stripS m)) := by
  refine ⟨rfl, mem_setAdd_self _ _, lookupL_appendPats_self _ _ _, ?_, rfl⟩
  intro k hk
  exact lookupL_appendPats_ne _ _ _ _ hk

/-- Witness for claim C6: a key other than the loaded mime keeps its
pattern lookup after loading a row with mixed case and padding. -/
theorem C6_witness :
    lookupL "other" (loadRow emptyTables (" JPG ", " Image/Jpeg ")).mime_patterns
      = lookupL "other" emptyTables.mime_patterns :=
  (C6_loader_row emptyTables " JPG " " Image/Jpeg ").2.2.2.1 "other" (by decide)

/-- Claim C7, counterexample to the claim as stated: with the mapping row
(zz, .a.) the raw entry .A. equals the known mime .a. only after
lower-casing, yet the classifier fails on it (the word-boundary pattern of
.a. cannot match next to the dots), so the row is classified invalid, not
potential. -/
theorem C7_counterexample :
    normalize_entry ".A." ∈ (load_mime_mapping [("zz", ".a.")]).valid_mimes
    ∧ ".A." ∉ (load_mime_mapping [("zz", ".a.")]).valid_mimes
    ∧ (process_counts (load_mime_mapping [("zz", ".a.")])
          [["entry", "count"], [".A.", "1"]]).map
        (fun b => (b.valid_mime_aggregate, b.potential_mime_aggregate,
                   b.invalid_mime_aggregate))
      = some ([], [], [(".A.", 1)]) := by
  decide

/-- Claim C7 (amended): an entry equal to a known mime only after
lower-casing (the raw text containing an uppercase letter) is never added
to the valid bucket, the exact check comparing the raw entry against the
lower-cased mime set; and provided the normalized entry begins and ends
with word-class characters — true of every well-formed MIME type string,
and what the whole-mime word-bounded pattern needs to match its own text —
and the mapping registers no empty-string mime (no blank mime_type field,
whose falsy match would route the row to the invalid bucket instead), the
entry is classified as a potential match: the classifier returns a
non-empty mime, the count goes to the potential sum, the raw entry text is
appended to that mime's potential entry list, and the valid bucket is
untouched. -/
theorem C7_case_mismatch (M : List (String × String)) (b : Buckets)
    (entry : String) (rest : List String) (count : Int)
    (h1 : entry.data.any Char.isUpper = true)
    (h2 : normalize_entry entry ∈ (load_mime_mapping M).valid_mimes)
    (h3 : headTailWord (lowerL (normalize_entry entry).data) = true)
    (h4 : rest[0]? >>= pyInt? = some count)
    (h5 : "" ∉ (load_mime_mapping M).valid_mimes) :
    entry ∉ (load_mime_mapping M).valid_mimes
    ∧ ∃ m b', match_mime (load_mime_mapping M) (normalize_entry entry) = some m ∧
        m ≠ "" ∧
        processRow (load_mime_mapping M) b (entry :: rest) = some b' ∧
        b'.valid_mime_aggregate = b.valid_mime_aggregate ∧
        b'.valid_mime_sum = b.valid_mime_sum ∧
        b'.possible_mime_sum = b.possible_mime_sum + count ∧
        lookupL m b'.potential_entry_map
          = some ((lookupL m b.potential_entry_map).getD [] ++ [entry]) := by
  have hnv : entry ∉ (load_mime_mapping M).valid_mimes := by
    intro hmem
    have hfalse := load_valid_no_upper M entry hmem
    rw [hfalse] at h1
    exact Bool.false_ne_true h1
  refine ⟨hnv, ?_⟩
  obtain ⟨ps, hmem, hpat⟩ := load_wordPat_inv M (normalize_entry entry) h2
  have hsearch : (Pat.wordPat (normalize_entry entry)).search (normalize_entry entry)
      = true := by
    show wordSearch (lowerL (normalize_entry entry).data)
      (lowerL (normalize_entry entry).data) = true
    exact wordSearch_self _ h3
  have hany : ps.any (fun p => p.search (normalize_entry entry)) = true :=
    List.any_eq_true.mpr ⟨Pat.wordPat (normalize_entry entry), hpat, hsearch⟩
  have hsome : (match_mime (load_mime_mapping M) (normalize_entry entry)).isSome
      = true :=
    matchInPatterns_isSome _ _ ⟨(normalize_entry entry, ps), hmem, hany⟩
  obtain ⟨m, hm⟩ := Option.isSome_iff_exists.mp hsome
  have hne : m ≠ "" := by
    intro hcontra
    obtain ⟨ps', hmem'⟩ := matchInPatterns_mem _ _ m hm
    have := load_keys_valid M (m, ps') hmem'
    rw [hcontra] at this
    exact h5 this
  refine ⟨m, _, hm, hne,
    processRow_potential _ b entry rest count m h4 hnv hm hne, rfl, rfl, rfl, ?_⟩
  exact lookupL_pushEntry_self _ _ _

/-- Witness for the amended claim C7: the entry IMAGE/JPEG with the
mapping row (jpg, image/jpeg), which registers no empty mime, is not valid
but is classified potential with its count. -/
theorem C7_witness :
    "IMAGE/JPEG" ∉ (load_mime_mapping [("jpg", "image/jpeg")]).valid_mimes
    ∧ ∃ m b', match_mime (load_mime_mapping [("jpg", "image/jpeg")])
          (normalize_entry "IMAGE/JPEG") = some m ∧
        m ≠ "" ∧
        processRow (load_mime_mapping [("jpg", "image/jpeg")]) initBuckets
          ("IMAGE/JPEG" :: ["2"]) = some b' ∧
        b'.valid_mime_aggregate = initBuckets.valid_mime_aggregate ∧
        b'.valid_mime_sum = initBuckets.valid_mime_sum ∧
        b'.possible_mime_sum = initBuckets.possible_mime_sum + 2 ∧
        lookupL m b'.potential_entry_map
          = some ((lookupL m initBuckets.potential_entry_map).getD []
              ++ ["IMAGE/JPEG"]) :=
  C7_case_mismatch [("jpg", "image/jpeg")] initBuckets "IMAGE/JPEG" ["2"] 2
    (by decide) (by decide) (by decide) (by decide) (by decide)

/-- Claim C8: extract_env returns eu-only on the eu filename; whenever it
returns an environment the filename decomposes around the literals
prod- and -mime-types-counts.csv with a newline-free middle, and it
returns the null sentinel exactly on filenames admitting no such
decomposition. -/
theorem C8_extract_env :
    extract_env "prod-eu-only-mime-types-counts.csv" = some "eu-only"
    ∧ (∀ s m, extract_env s = some m → EnvDecomp s.data m.data)
    ∧ (∀ s, extract_env s = none → ∀ m, ¬ EnvDecomp s.data m) := by
  refine ⟨by decide, ?_, ?_⟩
  · intro s m h
    obtain ⟨l, hl, hmk⟩ := Option.map_eq_some'.mp h
    have hdata : m.data = l := by rw [← hmk]
    rw [hdata]
    exact searchEnv_sound s.data l hl
  · intro s h m hd
    have hs := searchEnv_complete s.data m hd
    unfold extract_env at h
    rw [Option.map_eq_none'] at h
    rw [h] at hs
    simp at hs

/-- Witness for claim C8: the eu filename decomposes with middle
eu-only. -/
theorem C8_witness :
    EnvDecomp "prod-eu-only-mime-types-counts.csv".data "eu-only".data :=
  C8_extract_env.2.1 "prod-eu-only-mime-types-counts.csv" "eu-only" (by decide)

/-- Claim C9: the tool is deterministic — two runs of main over directory
listings and file systems that agree on every file lookup produce
identical results, in particular byte-identical potential, valid and
invalid report files. -/
theorem C9_deterministic (T : MimeTables) (dir : List String)
    (fs₁ fs₂ : List (String × List (List String)))
    (hfs : ∀ k, lookupL k fs₁ = lookupL k fs₂) :
    mainRun T dir fs₁ = mainRun T dir fs₂
    ∧ (mainRun T dir fs₁).written = (mainRun T dir fs₂).written := by
  have h := runEnvs_fs_ext T dir fs₁ fs₂ hfs files_envs 0
  exact ⟨h, congrArg RunResult.written h⟩

/-- Witness for claim C9: two representations of the same file system
(one with a shadowed duplicate entry) produce identical runs. -/
theorem C9_witness :
    mainRun emptyTables ["a"] [("a", []), ("a", [["x"]])]
      = mainRun emptyTables ["a"] [("a", [])]
    ∧ (mainRun emptyTables ["a"] [("a", []), ("a", [["x"]])]).written
      = (mainRun emptyTables ["a"] [("a", [])]).written :=
  C9_deterministic emptyTables ["a"] [("a", []), ("a", [["x"]])] [("a", [])]
    (by intro k; by_cases h : "a" = k <;> simp [lookupL, h])

/-- Claim C10: the global mapping tables pass through classification and
aggregation unchanged: threading them through the row loop of
process_counts returns them exactly as given together with the usual
buckets, and match_mime reads nothing of the tables but the pattern
dictionary. -/
theorem C10_tables_frame :
    (∀ (T : MimeTables) (rows : List (List String)) (out : MimeTables × Buckets),
      process_countsG T rows = some out →
      out.1 = T ∧ process_counts T rows = some out.2)
    ∧ (∀ (T T' : MimeTables) (e : String), T.mime_patterns = T'.mime_patterns →
        match_mime T e = match_mime T' e) := by
  constructor
  · intro T rows out h
    exact foldlM_G_frame T (rows.drop 1) initBuckets out h
  · intro T T' e h
    unfold match_mime
    rw [h]

/-- Witness for claim C10: the scenario run returns the tables unchanged
next to its buckets. -/
theorem C10_witness :
    (scenarioTables, scenarioBuckets).1 = scenarioTables
    ∧ process_counts scenarioTables scenarioRows
        = some (scenarioTables, scenarioBuckets).2 :=
  C10_tables_frame.1 scenarioTables scenarioRows (scenarioTables, scenarioBuckets)
    (by decide)
